import Mathlib

/-!
Verification of the SPSC atomic ring queue (src/src/ring_queue.rs).

The byte-oriented primitives `new_ring_queue`, `enqueue_item_prim` and
`dequeue_item_prim` are embedded as pure functions over an explicit state.
The control-block indices are Rust `u32` values, so every index computation
is performed modulo `2^32`; the slot array is modelled as a total function
from slot numbers to item values (an item value stands for the
`item_layout.size()` bytes moved by one `copy_nonoverlapping` call).
The two permitted threads are serialised: the sequential interleaving of
their calls is a list of operations applied one at a time.
-/

set_option autoImplicit false

namespace RingQueueModel

universe u

variable {α : Type u}

/-- Number of values of Rust `u32`: control-block indices are `AtomicU32`. -/
def U32CARD : Nat := 4294967296

/-- Truncation to `u32`, modelling `as u32` casts and wrapping `u32` arithmetic. -/
def u32 (n : Nat) : Nat := n % U32CARD

/-- Source `fn indexing_adjusted_capacity`: the slot array holds `capacity + 2` slots. -/
def indexing_adjusted_capacity (capacity : Nat) : Nat := capacity + 2

/-- The branch-free wrap `bumped * (!(bumped == icap) as u32)` shared by
`enqueue_item_prim` (line 121) and `dequeue_item_prim` (line 147). -/
def branch_free_wrap (icap bumped : Nat) : Nat :=
  bumped * (if bumped = icap then 0 else 1)

/-- The queue state: the `capacity` field of `RingQueueRaw` plus the memory
reachable from `backing_store` — the control block (two `u32` indices) and the
slot array, modelled as a total map from slot number to item value. -/
structure RingState (α : Type u) where
  capacity : Nat
  read_index : Nat
  write_index : Nat
  slots : Nat → α

/-- Source `fn new_ring_queue` (lines 69-90): rejects `capacity == 0`
(a fatal precondition failure, modelled as `none`), otherwise produces the
initial control block `write_index = 0`,
`read_index = (indexing_adjusted_capacity capacity - 1) as u32` over the fresh
(uninitialised) slot array `uninit`. -/
def new_ring_queue (capacity : Nat) (uninit : Nat → α) : Option (RingState α) :=
  if capacity = 0 then none
  else some {
    capacity := capacity
    read_index := u32 (indexing_adjusted_capacity capacity - 1)
    write_index := 0
    slots := uninit }

/-- Source `fn enqueue_item_prim` (lines 109-132). Returns the `bool` result
and the state after the call. -/
def enqueue_item_prim (s : RingState α) (item : α) : Bool × RingState α :=
  let prior_write_index := s.write_index
  let bumped_index := u32 (prior_write_index + 1)
  let icap := indexing_adjusted_capacity s.capacity
  let next_write_index := branch_free_wrap (u32 icap) bumped_index
  let current_read_index := s.read_index
  let full := next_write_index = current_read_index
  if full then (false, s)
  else (true, { s with
    write_index := next_write_index
    slots := Function.update s.slots prior_write_index item })

/-- Source `fn dequeue_item_prim` (lines 135-158). Returns the `bool` result,
the state after the call, and the contents of the caller's destination buffer
after the call (`dst` is its contents before the call). -/
def dequeue_item_prim (s : RingState α) (dst : α) : Bool × RingState α × α :=
  let read_index := s.read_index
  let bumped_index := u32 (read_index + 1)
  let icap := indexing_adjusted_capacity s.capacity
  let next_index := branch_free_wrap (u32 icap) bumped_index
  let write_index := s.write_index
  let empty := next_index = write_index
  if empty then (false, s, dst)
  else (true, { s with read_index := next_index }, s.slots next_index)

/-! ### Atomic memory orderings used by the protocols

The `Ordering` argument of every atomic access in the two protocols,
recorded access by access from the source. -/

/-- Rust `core::sync::atomic::Ordering`. -/
inductive MemOrder where
  | Relaxed
  | Acquire
  | Release
  | AcqRel
  | SeqCst
deriving DecidableEq

/-- Ordering of the producer's load of `write_index` (line 118). -/
def enqueue_write_index_load_order : MemOrder := MemOrder.Acquire

/-- Ordering of the producer's load of `read_index` (line 122). -/
def enqueue_read_index_load_order : MemOrder := MemOrder.Relaxed

/-- Ordering of the producer's publishing store to `write_index` (line 129). -/
def enqueue_write_index_store_order : MemOrder := MemOrder.Release

/-- Ordering of the consumer's load of `read_index` (line 144). -/
def dequeue_read_index_load_order : MemOrder := MemOrder.Acquire

/-- Ordering of the consumer's load of `write_index` that gates the emptiness
check and the subsequent read of the slot bytes (line 148). -/
def dequeue_write_index_load_order : MemOrder := MemOrder.Relaxed

/-- Ordering of the consumer's publishing store to `read_index` (line 155). -/
def dequeue_read_index_store_order : MemOrder := MemOrder.Release

/-! ### Claim C3 -/

/-- Claim C3 (settled as a code bug): the claim states the consumer's gating
load of `write_index` is acquire-ordered, but in the source that load
(line 148) uses `Ordering::Relaxed`, which is not acquire — the spec itself
flags this as a latent defect in §9 while requiring acquire in §4.4 step 3. -/
theorem dequeue_gating_load_is_relaxed_not_acquire :
    dequeue_write_index_load_order = MemOrder.Relaxed ∧
    dequeue_write_index_load_order ≠ MemOrder.Acquire := by
  decide

/-! ### Claim C8 -/

/-- Claim C8: under the index invariant `i < capacity + 2`, the branch-free
wrapped successor `(i+1) * (boolean of (i+1 != capacity+2))` used by both
protocols equals the plain modulo computation `(i+1) % (capacity+2)`. -/
theorem branch_free_wrap_eq_mod (capacity i : Nat)
    (h : i < indexing_adjusted_capacity capacity) :
    branch_free_wrap (indexing_adjusted_capacity capacity) (i + 1) =
      (i + 1) % indexing_adjusted_capacity capacity := by
  unfold branch_free_wrap
  by_cases hc : i + 1 = indexing_adjusted_capacity capacity
  · simp [hc, Nat.mod_self]
  · have hlt : i + 1 < indexing_adjusted_capacity capacity := by omega
    simp [hc, Nat.mod_eq_of_lt hlt]

/-- Witness for claim C8 at `capacity = 3`, `i = 4`:
`5 * (boolean of (5 != 5)) = 0 = 5 % 5`. -/
theorem branch_free_wrap_eq_mod_witness :
    branch_free_wrap (indexing_adjusted_capacity 3) (4 + 1) =
      (4 + 1) % indexing_adjusted_capacity 3 :=
  branch_free_wrap_eq_mod 3 4 (by decide)

/-! ### Claim C6 -/

/-- Claim C6: a failed call has no side effects — when `enqueue_item_prim`
reports full or `dequeue_item_prim` reports empty, the control-block indices,
every slot, and (for dequeue) the destination buffer are exactly as before. -/
theorem failed_calls_have_no_side_effects (s : RingState α) (item dst : α) :
    ((enqueue_item_prim s item).1 = false → (enqueue_item_prim s item).2 = s) ∧
    ((dequeue_item_prim s dst).1 = false →
      (dequeue_item_prim s dst).2.1 = s ∧ (dequeue_item_prim s dst).2.2 = dst) := by
  constructor
  · intro h
    unfold enqueue_item_prim at *
    by_cases hfull : branch_free_wrap (u32 (indexing_adjusted_capacity s.capacity))
        (u32 (s.write_index + 1)) = s.read_index
    · simp [hfull]
    · simp [hfull] at h
  · intro h
    unfold dequeue_item_prim at *
    by_cases hempty : branch_free_wrap (u32 (indexing_adjusted_capacity s.capacity))
        (u32 (s.read_index + 1)) = s.write_index
    · simp [hempty]
    · simp [hempty] at h

/-- Witness for claim C6 on a concrete queue of capacity 1: its full state
`(read_index, write_index) = (2, 1)` rejects an enqueue without change, and
its fresh state `(2, 0)` rejects a dequeue leaving state and destination
untouched. -/
theorem failed_calls_have_no_side_effects_witness :
    (enqueue_item_prim ⟨1, 2, 1, fun _ => (0 : Nat)⟩ 7).2 = ⟨1, 2, 1, fun _ => (0 : Nat)⟩ ∧
    (dequeue_item_prim ⟨1, 2, 0, fun _ => (0 : Nat)⟩ 9).2.1 = ⟨1, 2, 0, fun _ => (0 : Nat)⟩ ∧
    (dequeue_item_prim ⟨1, 2, 0, fun _ => (0 : Nat)⟩ 9).2.2 = 9 :=
  ⟨(failed_calls_have_no_side_effects ⟨1, 2, 1, fun _ => (0 : Nat)⟩ 7 9).1 rfl,
   (failed_calls_have_no_side_effects ⟨1, 2, 0, fun _ => (0 : Nat)⟩ 7 9).2 rfl⟩

/-! ### Claim C10 -/

/-- Claim C10: when `dequeue_item_prim` reports empty, the caller-supplied
destination buffer is left exactly unchanged (no byte of it is written) —
the `copy_nonoverlapping` into the destination is only reached on the success
path. -/
theorem dequeue_failure_leaves_destination_unchanged (s : RingState α) (dst : α)
    (h : (dequeue_item_prim s dst).1 = false) :
    (dequeue_item_prim s dst).2.2 = dst := by
  unfold dequeue_item_prim at *
  by_cases hempty : branch_free_wrap (u32 (indexing_adjusted_capacity s.capacity))
      (u32 (s.read_index + 1)) = s.write_index
  · simp [hempty]
  · simp [hempty] at h

/-- Witness for claim C10: dequeuing the fresh capacity-1 queue (state
`(read_index, write_index) = (2, 0)`) fails and returns the destination
buffer `9` unchanged. -/
theorem dequeue_failure_leaves_destination_unchanged_witness :
    (dequeue_item_prim ⟨1, 2, 0, fun _ => (0 : Nat)⟩ 9).2.2 = 9 :=
  dequeue_failure_leaves_destination_unchanged ⟨1, 2, 0, fun _ => (0 : Nat)⟩ 9 rfl

/-! ### The index orbit actually traversed by the protocols

Both protocols step an index by `branch_free_wrap ((capacity+2) as u32)
((i+1) as u32)`.  Starting from 0 this walks `0, 1, …, p-1, 0, …` where the
period `p` is `(capacity+2) as u32` — except that when that cast yields 0 the
wrap only fires at the `u32` overflow itself, giving period `2^32`. -/

/-- Period of the index orbit cut out by the `u32`-truncated wrap test. -/
def ring_period (capacity : Nat) : Nat :=
  if u32 (indexing_adjusted_capacity capacity) = 0 then U32CARD
  else u32 (indexing_adjusted_capacity capacity)

theorem ring_period_pos (capacity : Nat) : 0 < ring_period capacity := by
  unfold ring_period
  by_cases h : u32 (indexing_adjusted_capacity capacity) = 0
  · simp [h, U32CARD]
  · simp [h]
    omega

theorem ring_period_le_icap (capacity : Nat) :
    ring_period capacity ≤ indexing_adjusted_capacity capacity := by
  unfold ring_period u32 indexing_adjusted_capacity U32CARD
  by_cases h : (capacity + 2) % 4294967296 = 0
  · rw [if_pos h]
    have h2 := Nat.div_add_mod (capacity + 2) 4294967296
    omega
  · rw [if_neg h]
    exact Nat.mod_le _ _

theorem ring_period_eq_icap (capacity : Nat)
    (h : indexing_adjusted_capacity capacity ≤ U32CARD) :
    ring_period capacity = indexing_adjusted_capacity capacity := by
  unfold ring_period u32 indexing_adjusted_capacity at *
  by_cases h2 : capacity + 2 = U32CARD
  · simp [h2, Nat.mod_self]
  · have h3 : capacity + 2 < U32CARD := by omega
    rw [Nat.mod_eq_of_lt h3]
    have h4 : ¬ capacity + 2 = 0 := by omega
    simp [h4]

theorem ring_period_lt_of_ne (capacity : Nat)
    (h : u32 (indexing_adjusted_capacity capacity) ≠ 0) :
    ring_period capacity < U32CARD := by
  unfold ring_period
  simp only [h, if_neg]
  exact Nat.mod_lt _ (by unfold U32CARD; omega)

/-- The index step computed by both protocols equals the plain successor
modulo `ring_period` on indices inside the orbit. -/
theorem step_eq_mod (capacity i : Nat) (h : i < ring_period capacity) :
    branch_free_wrap (u32 (indexing_adjusted_capacity capacity)) (u32 (i + 1)) =
      (i + 1) % ring_period capacity := by
  by_cases hz : u32 (indexing_adjusted_capacity capacity) = 0
  · have hp : ring_period capacity = U32CARD := by unfold ring_period; simp [hz]
    rw [hp] at h ⊢
    by_cases hi : i + 1 = U32CARD
    · have h1 : u32 (i + 1) = 0 := by unfold u32; rw [hi, Nat.mod_self]
      rw [h1, hz, hi, Nat.mod_self]
      unfold branch_free_wrap
      simp
    · have hlt : i + 1 < U32CARD := by omega
      have h1 : u32 (i + 1) = i + 1 := Nat.mod_eq_of_lt hlt
      rw [h1, hz, Nat.mod_eq_of_lt hlt]
      unfold branch_free_wrap
      have : ¬ i + 1 = 0 := by omega
      simp [this]
  · have hp : ring_period capacity = u32 (indexing_adjusted_capacity capacity) := by
      unfold ring_period; simp [hz]
    have hplt : ring_period capacity < U32CARD := ring_period_lt_of_ne capacity hz
    have hlt : i + 1 < U32CARD := by omega
    have h1 : u32 (i + 1) = i + 1 := Nat.mod_eq_of_lt hlt
    rw [h1, ← hp]
    unfold branch_free_wrap
    by_cases hi : i + 1 = ring_period capacity
    · simp [hi, Nat.mod_self]
    · have : i + 1 < ring_period capacity := by omega
      simp [hi, Nat.mod_eq_of_lt this]

/-! ### Abstraction: the logical contents of the queue -/

/-- Number of items currently held by the queue. -/
def live_count (s : RingState α) : Nat :=
  (s.write_index + ring_period s.capacity - (s.read_index + 1)) %
    ring_period s.capacity

/-- The logical contents of the queue, oldest item first: the consumer's next
dequeue reads slot `(read_index + 1) % ring_period`, the one after reads the
following slot, and so on up to the slot before the producer's
`write_index`. -/
def queue_contents (s : RingState α) : List α :=
  (List.range (live_count s)).map
    (fun k => s.slots ((s.read_index + 1 + k) % ring_period s.capacity))

theorem length_queue_contents (s : RingState α) :
    (queue_contents s).length = live_count s := by
  unfold queue_contents
  simp

/-- State invariant: both indices lie on the index orbit, and they only
coincide in the degenerate period-1 orbit (where every call is rejected). -/
def Inv (s : RingState α) : Prop :=
  s.read_index < ring_period s.capacity ∧
  s.write_index < ring_period s.capacity ∧
  (s.read_index = s.write_index → ring_period s.capacity = 1)

/-- Case split for one subtraction of the modulus. -/
theorem mod_two_cases (x m : Nat) (_hm : 0 < m) (h : x < 2 * m) :
    (x < m ∧ x % m = x) ∨ (m ≤ x ∧ x % m = x - m) := by
  by_cases hx : x < m
  · exact Or.inl ⟨hx, Nat.mod_eq_of_lt hx⟩
  · have hle : m ≤ x := by omega
    refine Or.inr ⟨hle, ?_⟩
    rw [Nat.mod_eq_sub_mod hle, Nat.mod_eq_of_lt (by omega)]

/-! ### Unfolded forms of the two primitives -/

theorem enqueue_eq (s : RingState α) (item : α) :
    enqueue_item_prim s item =
      if branch_free_wrap (u32 (indexing_adjusted_capacity s.capacity))
          (u32 (s.write_index + 1)) = s.read_index
      then (false, s)
      else (true, { s with
        write_index := branch_free_wrap (u32 (indexing_adjusted_capacity s.capacity))
          (u32 (s.write_index + 1))
        slots := Function.update s.slots s.write_index item }) := rfl

theorem dequeue_eq (s : RingState α) (dst : α) :
    dequeue_item_prim s dst =
      if branch_free_wrap (u32 (indexing_adjusted_capacity s.capacity))
          (u32 (s.read_index + 1)) = s.write_index
      then (false, s, dst)
      else (true,
        { s with
          read_index := branch_free_wrap (u32 (indexing_adjusted_capacity s.capacity))
            (u32 (s.read_index + 1)) },
        s.slots (branch_free_wrap (u32 (indexing_adjusted_capacity s.capacity))
          (u32 (s.read_index + 1)))) := rfl

/-! ### Effect of a successful enqueue on the abstract contents -/

theorem contents_enqueue_success (s : RingState α) (item : α)
    (hr : s.read_index < ring_period s.capacity)
    (hw : s.write_index < ring_period s.capacity)
    (hrw : s.read_index = s.write_index → ring_period s.capacity = 1)
    (hfull : ¬ (s.write_index + 1) % ring_period s.capacity = s.read_index) :
    queue_contents { s with
        write_index := (s.write_index + 1) % ring_period s.capacity
        slots := Function.update s.slots s.write_index item } =
      queue_contents s ++ [item] := by
  have hp : 0 < ring_period s.capacity := ring_period_pos s.capacity
  have hwlt : (s.write_index + 1) % ring_period s.capacity < ring_period s.capacity :=
    Nat.mod_lt _ hp
  have hrne : ¬ s.read_index = s.write_index := by
    intro h
    have hp1 := hrw h
    apply hfull
    rw [hp1] at hr ⊢
    simp [Nat.mod_one]
    omega
  have hlcA : live_count s =
      (s.write_index + ring_period s.capacity - (s.read_index + 1)) %
        ring_period s.capacity := rfl
  have hlc : live_count s < ring_period s.capacity := Nat.mod_lt _ hp
  have hA := mod_two_cases
    (s.write_index + ring_period s.capacity - (s.read_index + 1))
    (ring_period s.capacity) hp (by omega)
  have hC := mod_two_cases (s.write_index + 1) (ring_period s.capacity) hp (by omega)
  have hsucc : live_count s + 1 < ring_period s.capacity := by omega
  have hlc' : live_count { s with
      write_index := (s.write_index + 1) % ring_period s.capacity
      slots := Function.update s.slots s.write_index item } = live_count s + 1 := by
    show ((s.write_index + 1) % ring_period s.capacity + ring_period s.capacity -
        (s.read_index + 1)) % ring_period s.capacity = live_count s + 1
    have hB := mod_two_cases
      ((s.write_index + 1) % ring_period s.capacity + ring_period s.capacity -
        (s.read_index + 1)) (ring_period s.capacity) hp (by omega)
    omega
  have hidx : (s.read_index + 1 + live_count s) % ring_period s.capacity =
      s.write_index := by
    have hD := mod_two_cases (s.read_index + 1 + live_count s)
      (ring_period s.capacity) hp (by omega)
    omega
  unfold queue_contents
  rw [hlc', List.range_succ, List.map_append]
  congr 1
  · apply List.map_congr_left
    intro k hk
    have hkn := List.mem_range.mp hk
    have hne : ¬ (s.read_index + 1 + k) % ring_period s.capacity = s.write_index := by
      intro hEq
      have hE := mod_two_cases (s.read_index + 1 + k) (ring_period s.capacity) hp (by omega)
      omega
    show Function.update s.slots s.write_index item
        ((s.read_index + 1 + k) % ring_period s.capacity) =
      s.slots ((s.read_index + 1 + k) % ring_period s.capacity)
    exact Function.update_noteq hne item s.slots
  · show [Function.update s.slots s.write_index item
        ((s.read_index + 1 + live_count s) % ring_period s.capacity)] = [item]
    rw [hidx]
    rw [Function.update_same]

/-! ### Effect of a successful dequeue on the abstract contents -/

theorem contents_dequeue_success (s : RingState α)
    (hr : s.read_index < ring_period s.capacity)
    (hw : s.write_index < ring_period s.capacity)
    (hne : ¬ (s.read_index + 1) % ring_period s.capacity = s.write_index) :
    queue_contents s =
      s.slots ((s.read_index + 1) % ring_period s.capacity) ::
        queue_contents
          { s with read_index := (s.read_index + 1) % ring_period s.capacity } := by
  have hp : 0 < ring_period s.capacity := ring_period_pos s.capacity
  have hr1lt : (s.read_index + 1) % ring_period s.capacity < ring_period s.capacity :=
    Nat.mod_lt _ hp
  have hlcA : live_count s =
      (s.write_index + ring_period s.capacity - (s.read_index + 1)) %
        ring_period s.capacity := rfl
  have hlc : live_count s < ring_period s.capacity := Nat.mod_lt _ hp
  have hA := mod_two_cases
    (s.write_index + ring_period s.capacity - (s.read_index + 1))
    (ring_period s.capacity) hp (by omega)
  have hC := mod_two_cases (s.read_index + 1) (ring_period s.capacity) hp (by omega)
  have hlcpos : 1 ≤ live_count s := by
    by_contra h
    apply hne
    omega
  have hlc' : live_count
      { s with read_index := (s.read_index + 1) % ring_period s.capacity } =
      live_count s - 1 := by
    show (s.write_index + ring_period s.capacity -
        ((s.read_index + 1) % ring_period s.capacity + 1)) % ring_period s.capacity =
      live_count s - 1
    have hB := mod_two_cases
      (s.write_index + ring_period s.capacity -
        ((s.read_index + 1) % ring_period s.capacity + 1))
      (ring_period s.capacity) hp (by omega)
    omega
  obtain ⟨m, hm⟩ : ∃ m, live_count s = m + 1 := ⟨live_count s - 1, by omega⟩
  unfold queue_contents
  rw [hlc', hm]
  simp only [Nat.add_sub_cancel]
  rw [List.range_succ_eq_map m, List.map_cons, List.map_map]
  congr 1
  apply List.map_congr_left
  intro k hk
  show s.slots ((s.read_index + 1 + Nat.succ k) % ring_period s.capacity) =
    s.slots (((s.read_index + 1) % ring_period s.capacity + 1 + k) %
      ring_period s.capacity)
  have hx : ((s.read_index + 1) % ring_period s.capacity + 1 + k) %
      ring_period s.capacity =
      (s.read_index + 1 + Nat.succ k) % ring_period s.capacity := by
    rw [show (s.read_index + 1) % ring_period s.capacity + 1 + k =
        (s.read_index + 1) % ring_period s.capacity + (1 + k) from by omega]
    rw [Nat.mod_add_mod]
    rw [show s.read_index + 1 + (1 + k) = s.read_index + 1 + Nat.succ k from by omega]
  rw [hx]

/-! ### Full behavioural specification of one enqueue call -/

theorem enqueue_spec (s : RingState α) (item : α) (hinv : Inv s) :
    Inv (enqueue_item_prim s item).2 ∧
    (enqueue_item_prim s item).2.capacity = s.capacity ∧
    queue_contents (enqueue_item_prim s item).2 =
      queue_contents s ++ (if (enqueue_item_prim s item).1 = true then [item] else []) ∧
    ((enqueue_item_prim s item).1 = false ↔
      live_count s = ring_period s.capacity - 2) ∧
    ((enqueue_item_prim s item).1 = false → (enqueue_item_prim s item).2 = s) := by
  obtain ⟨hr, hw, hrw⟩ := hinv
  have hp : 0 < ring_period s.capacity := ring_period_pos s.capacity
  have hstep := step_eq_mod s.capacity s.write_index hw
  rw [enqueue_eq s item, hstep]
  have hlcA : live_count s =
      (s.write_index + ring_period s.capacity - (s.read_index + 1)) %
        ring_period s.capacity := rfl
  have hlc : live_count s < ring_period s.capacity := Nat.mod_lt _ hp
  have hA := mod_two_cases
    (s.write_index + ring_period s.capacity - (s.read_index + 1))
    (ring_period s.capacity) hp (by omega)
  have hC := mod_two_cases (s.write_index + 1) (ring_period s.capacity) hp (by omega)
  by_cases hfull : (s.write_index + 1) % ring_period s.capacity = s.read_index
  · rw [if_pos hfull]
    exact ⟨⟨hr, hw, hrw⟩, rfl, by simp, ⟨fun _ => by omega, fun _ => rfl⟩,
      fun _ => rfl⟩
  · rw [if_neg hfull]
    refine ⟨⟨hr, Nat.mod_lt _ hp, fun h => absurd h.symm hfull⟩, rfl, ?_, ?_, ?_⟩
    · simpa using contents_enqueue_success s item hr hw hrw hfull
    · exact ⟨fun h => by simp at h,
        fun h => absurd (show (s.write_index + 1) % ring_period s.capacity =
          s.read_index by omega) hfull⟩
    · intro h
      simp at h

/-! ### Full behavioural specification of one dequeue call -/

theorem dequeue_spec (s : RingState α) (dst : α) (hinv : Inv s) :
    Inv (dequeue_item_prim s dst).2.1 ∧
    (dequeue_item_prim s dst).2.1.capacity = s.capacity ∧
    queue_contents s =
      (if (dequeue_item_prim s dst).1 = true
        then [(dequeue_item_prim s dst).2.2] else []) ++
        queue_contents (dequeue_item_prim s dst).2.1 ∧
    ((dequeue_item_prim s dst).1 = false ↔ queue_contents s = []) ∧
    ((dequeue_item_prim s dst).1 = false →
      (dequeue_item_prim s dst).2.1 = s ∧ (dequeue_item_prim s dst).2.2 = dst) := by
  obtain ⟨hr, hw, hrw⟩ := hinv
  have hp : 0 < ring_period s.capacity := ring_period_pos s.capacity
  have hstep := step_eq_mod s.capacity s.read_index hr
  rw [dequeue_eq s dst, hstep]
  have hlcA : live_count s =
      (s.write_index + ring_period s.capacity - (s.read_index + 1)) %
        ring_period s.capacity := rfl
  have hlc : live_count s < ring_period s.capacity := Nat.mod_lt _ hp
  have hA := mod_two_cases
    (s.write_index + ring_period s.capacity - (s.read_index + 1))
    (ring_period s.capacity) hp (by omega)
  have hC := mod_two_cases (s.read_index + 1) (ring_period s.capacity) hp (by omega)
  by_cases hempty : (s.read_index + 1) % ring_period s.capacity = s.write_index
  · rw [if_pos hempty]
    have hlc0 : live_count s = 0 := by omega
    have hcont : queue_contents s = [] := by
      unfold queue_contents
      rw [hlc0]
      rfl
    exact ⟨⟨hr, hw, hrw⟩, rfl, by simp, ⟨fun _ => hcont, fun _ => rfl⟩,
      fun _ => ⟨rfl, rfl⟩⟩
  · rw [if_neg hempty]
    have hcont := contents_dequeue_success s hr hw hempty
    refine ⟨⟨Nat.mod_lt _ hp, hw, fun h => absurd h hempty⟩, rfl, ?_, ?_, ?_⟩
    · simpa using hcont
    · refine ⟨fun h => by simp at h, fun h => ?_⟩
      rw [hcont] at h
      simp at h
    · intro h
      simp at h

/-! ### The freshly created queue -/

theorem initial_read_eq (capacity : Nat) :
    u32 (indexing_adjusted_capacity capacity - 1) = ring_period capacity - 1 := by
  unfold ring_period u32 indexing_adjusted_capacity U32CARD
  by_cases h : (capacity + 2) % 4294967296 = 0
  · rw [if_pos h]
    omega
  · rw [if_neg h]
    omega

theorem new_ring_queue_spec (capacity : Nat) (uninit : Nat → α) (hpos : 1 ≤ capacity) :
    ∃ s0 : RingState α, new_ring_queue capacity uninit = some s0 ∧ Inv s0 ∧
      queue_contents s0 = [] ∧ s0.capacity = capacity ∧ s0.write_index = 0 ∧
      s0.read_index = ring_period capacity - 1 := by
  have hp : 0 < ring_period capacity := ring_period_pos capacity
  have hinit := initial_read_eq capacity
  have hne : ¬ capacity = 0 := by omega
  refine ⟨{ capacity := capacity
            read_index := u32 (indexing_adjusted_capacity capacity - 1)
            write_index := 0
            slots := uninit }, ?_, ?_, ?_, rfl, rfl, hinit⟩
  · unfold new_ring_queue
    rw [if_neg hne]
  · show u32 (indexing_adjusted_capacity capacity - 1) < ring_period capacity ∧
      0 < ring_period capacity ∧
      (u32 (indexing_adjusted_capacity capacity - 1) = 0 → ring_period capacity = 1)
    exact ⟨by omega, hp, fun h => by omega⟩
  · have hlc0 : live_count
        { capacity := capacity
          read_index := u32 (indexing_adjusted_capacity capacity - 1)
          write_index := 0
          slots := uninit } = 0 := by
      show (0 + ring_period capacity -
        (u32 (indexing_adjusted_capacity capacity - 1) + 1)) % ring_period capacity = 0
      have hE := mod_two_cases
        (0 + ring_period capacity - (u32 (indexing_adjusted_capacity capacity - 1) + 1))
        (ring_period capacity) hp (by omega)
      omega
    unfold queue_contents
    rw [hlc0]
    rfl

/-! ### Sequences of calls

The two permitted threads, serialised: an arbitrary interleaving of the
producer's `enqueue_item_prim` calls and the consumer's `dequeue_item_prim`
calls is a list of operations applied one at a time. -/

/-- One call on the queue. -/
inductive QueueOp (α : Type u) where
  | enq (item : α)
  | deq

/-- Run a call sequence from a state. Returns the final state, the list of
items accepted by successful enqueues (in call order), and the list of values
written into the consumer's destination by successful dequeues (in call
order). -/
def run_ops (dst : α) : RingState α → List (QueueOp α) → RingState α × List α × List α
  | s, [] => (s, [], [])
  | s, QueueOp.enq item :: rest =>
    let r := enqueue_item_prim s item
    let t := run_ops dst r.2 rest
    (t.1, (if r.1 = true then [item] else []) ++ t.2.1, t.2.2)
  | s, QueueOp.deq :: rest =>
    let r := dequeue_item_prim s dst
    let t := run_ops dst r.2.1 rest
    (t.1, t.2.1, (if r.1 = true then [r.2.2] else []) ++ t.2.2)

theorem run_ops_nil (dst : α) (s : RingState α) : run_ops dst s [] = (s, [], []) := rfl

theorem run_ops_enq (dst : α) (s : RingState α) (item : α) (rest : List (QueueOp α)) :
    run_ops dst s (QueueOp.enq item :: rest) =
      ((run_ops dst (enqueue_item_prim s item).2 rest).1,
       (if (enqueue_item_prim s item).1 = true then [item] else []) ++
         (run_ops dst (enqueue_item_prim s item).2 rest).2.1,
       (run_ops dst (enqueue_item_prim s item).2 rest).2.2) := rfl

theorem run_ops_deq (dst : α) (s : RingState α) (rest : List (QueueOp α)) :
    run_ops dst s (QueueOp.deq :: rest) =
      ((run_ops dst (dequeue_item_prim s dst).2.1 rest).1,
       (run_ops dst (dequeue_item_prim s dst).2.1 rest).2.1,
       (if (dequeue_item_prim s dst).1 = true then [(dequeue_item_prim s dst).2.2] else []) ++
         (run_ops dst (dequeue_item_prim s dst).2.1 rest).2.2) := rfl

/-- Simulation invariant for whole call sequences: the values dequeued so far
followed by the values still resident equal the values resident at the start
followed by the values enqueued so far. -/
theorem run_ops_sim (dst : α) (ops : List (QueueOp α)) :
    ∀ s : RingState α, Inv s →
      Inv (run_ops dst s ops).1 ∧
      (run_ops dst s ops).1.capacity = s.capacity ∧
      (run_ops dst s ops).2.2 ++ queue_contents (run_ops dst s ops).1 =
        queue_contents s ++ (run_ops dst s ops).2.1 := by
  induction ops with
  | nil =>
    intro s hs
    rw [run_ops_nil]
    exact ⟨hs, rfl, by simp⟩
  | cons op rest ih =>
    intro s hs
    cases op with
    | enq item =>
      obtain ⟨hi1, hi2, hi3, _, _⟩ := enqueue_spec s item hs
      obtain ⟨hj1, hj2, hj3⟩ := ih (enqueue_item_prim s item).2 hi1
      rw [run_ops_enq]
      refine ⟨hj1, by rw [hj2, hi2], ?_⟩
      rw [hj3, hi3, List.append_assoc]
    | deq =>
      obtain ⟨hi1, hi2, hi3, _, _⟩ := dequeue_spec s dst hs
      obtain ⟨hj1, hj2, hj3⟩ := ih (dequeue_item_prim s dst).2.1 hi1
      rw [run_ops_deq]
      refine ⟨hj1, by rw [hj2, hi2], ?_⟩
      rw [hi3, List.append_assoc, hj3, List.append_assoc]

/-! ### Claim C2 -/

/-- Claim C2: for every sequence of enqueue and dequeue calls executed one at
a time on one queue, the successful dequeues reproduce the successfully
enqueued items bit-identically and in FIFO order (the dequeued list is a
prefix of the enqueued list), and once every successfully enqueued item has
been dequeued the next dequeue returns `false`. -/
theorem run_ops_fifo (capacity : Nat) (uninit : Nat → α) (dst : α)
    (ops : List (QueueOp α)) (s0 : RingState α)
    (hnew : new_ring_queue capacity uninit = some s0) :
    (∃ rest, (run_ops dst s0 ops).2.1 = (run_ops dst s0 ops).2.2 ++ rest) ∧
    ((run_ops dst s0 ops).2.2.length = (run_ops dst s0 ops).2.1.length →
      (dequeue_item_prim (run_ops dst s0 ops).1 dst).1 = false) := by
  have hpos : 1 ≤ capacity := by
    by_contra h
    have h0 : capacity = 0 := by omega
    unfold new_ring_queue at hnew
    rw [if_pos h0] at hnew
    simp at hnew
  obtain ⟨s0', hs0', hinv, hcont, _, _, _⟩ := new_ring_queue_spec capacity uninit hpos
  rw [hnew] at hs0'
  injection hs0' with h
  subst h
  obtain ⟨hf1, _, hf3⟩ := run_ops_sim dst ops s0 hinv
  rw [hcont] at hf3
  simp only [List.nil_append] at hf3
  constructor
  · exact ⟨queue_contents (run_ops dst s0 ops).1, hf3.symm⟩
  · intro hlen
    have hl := congrArg List.length hf3
    simp only [List.length_append] at hl
    have hempty : queue_contents (run_ops dst s0 ops).1 = [] :=
      List.length_eq_zero.mp (by omega)
    obtain ⟨_, _, _, hd4, _⟩ := dequeue_spec (run_ops dst s0 ops).1 dst hf1
    exact hd4.mpr hempty

/-- Witness for claim C2: a concrete run on the capacity-1 queue — enqueue 5
then dequeue — satisfies both conclusions. -/
theorem run_ops_fifo_witness :
    (∃ rest, (run_ops 9 (⟨1, 2, 0, fun _ => (0 : Nat)⟩ : RingState Nat)
        [QueueOp.enq 5, QueueOp.deq]).2.1 =
      (run_ops 9 (⟨1, 2, 0, fun _ => (0 : Nat)⟩ : RingState Nat)
        [QueueOp.enq 5, QueueOp.deq]).2.2 ++ rest) ∧
    ((run_ops 9 (⟨1, 2, 0, fun _ => (0 : Nat)⟩ : RingState Nat)
        [QueueOp.enq 5, QueueOp.deq]).2.2.length =
      (run_ops 9 (⟨1, 2, 0, fun _ => (0 : Nat)⟩ : RingState Nat)
        [QueueOp.enq 5, QueueOp.deq]).2.1.length →
      (dequeue_item_prim (run_ops 9 (⟨1, 2, 0, fun _ => (0 : Nat)⟩ : RingState Nat)
        [QueueOp.enq 5, QueueOp.deq]).1 9).1 = false) :=
  run_ops_fifo 1 (fun _ => 0) 9 [QueueOp.enq 5, QueueOp.deq]
    ⟨1, 2, 0, fun _ => (0 : Nat)⟩ rfl

/-! ### Claim C4 -/

/-- Claim C4: for every capacity `C ≥ 1`, in every state reachable from the
freshly created queue by any sequence of enqueue and dequeue calls, both
`read_index` and `write_index` lie in `[0, C + 2)` (construction establishes
the bound — take the empty sequence — and every call preserves it). -/
theorem reachable_indices_in_range (capacity : Nat) (uninit : Nat → α) (dst : α)
    (ops : List (QueueOp α)) (s0 : RingState α) (hpos : 1 ≤ capacity)
    (hnew : new_ring_queue capacity uninit = some s0) :
    (run_ops dst s0 ops).1.read_index < capacity + 2 ∧
    (run_ops dst s0 ops).1.write_index < capacity + 2 := by
  obtain ⟨s0', hs0', hinv, _, hcap, _, _⟩ := new_ring_queue_spec capacity uninit hpos
  rw [hnew] at hs0'
  injection hs0' with h
  subst h
  obtain ⟨⟨hr, hw, _⟩, hc, _⟩ := run_ops_sim dst ops s0 hinv
  have hcapf : (run_ops dst s0 ops).1.capacity = capacity := by rw [hc, hcap]
  rw [hcapf] at hr hw
  have hle := ring_period_le_icap capacity
  unfold indexing_adjusted_capacity at hle
  exact ⟨by omega, by omega⟩

/-- Witness for claim C4: on the capacity-1 queue, after enqueue 5 then
dequeue, both indices are below `1 + 2`. -/
theorem reachable_indices_in_range_witness :
    (run_ops 9 (⟨1, 2, 0, fun _ => (0 : Nat)⟩ : RingState Nat)
      [QueueOp.enq 5, QueueOp.deq]).1.read_index < 1 + 2 ∧
    (run_ops 9 (⟨1, 2, 0, fun _ => (0 : Nat)⟩ : RingState Nat)
      [QueueOp.enq 5, QueueOp.deq]).1.write_index < 1 + 2 :=
  reachable_indices_in_range 1 (fun _ => 0) 9 [QueueOp.enq 5, QueueOp.deq]
    ⟨1, 2, 0, fun _ => (0 : Nat)⟩ (by decide) rfl

/-! ### Consecutive enqueues -/

/-- Run one enqueue per list element, collecting each call's result. -/
def enqueue_many : RingState α → List α → RingState α × List Bool
  | s, [] => (s, [])
  | s, item :: rest =>
    let r := enqueue_item_prim s item
    let t := enqueue_many r.2 rest
    (t.1, r.1 :: t.2)

theorem enqueue_many_nil (s : RingState α) : enqueue_many s [] = (s, []) := rfl

theorem enqueue_many_cons (s : RingState α) (item : α) (rest : List α) :
    enqueue_many s (item :: rest) =
      ((enqueue_many (enqueue_item_prim s item).2 rest).1,
       (enqueue_item_prim s item).1 ::
         (enqueue_many (enqueue_item_prim s item).2 rest).2) := rfl

theorem enqueue_many_append (l1 l2 : List α) : ∀ s : RingState α,
    enqueue_many s (l1 ++ l2) =
      ((enqueue_many (enqueue_many s l1).1 l2).1,
       (enqueue_many s l1).2 ++ (enqueue_many (enqueue_many s l1).1 l2).2) := by
  induction l1 with
  | nil =>
    intro s
    rw [List.nil_append, enqueue_many_nil]
    simp
  | cons b bs ih =>
    intro s
    rw [List.cons_append, enqueue_many_cons, enqueue_many_cons,
      ih (enqueue_item_prim s b).2]
    simp

/-- While there is room for all of them, consecutive enqueues all succeed and
each adds one resident item. -/
theorem enqueue_many_succeeds (items : List α) :
    ∀ s : RingState α, Inv s →
      live_count s + items.length + 2 ≤ ring_period s.capacity →
      (enqueue_many s items).2 = List.replicate items.length true ∧
      Inv (enqueue_many s items).1 ∧
      (enqueue_many s items).1.capacity = s.capacity ∧
      live_count (enqueue_many s items).1 = live_count s + items.length := by
  induction items with
  | nil =>
    intro s hs _
    rw [enqueue_many_nil]
    exact ⟨rfl, hs, rfl, by simp⟩
  | cons item rest ih =>
    intro s hs hroom
    simp only [List.length_cons] at hroom
    obtain ⟨hi1, hi2, hi3, hi4, _⟩ := enqueue_spec s item hs
    have hok : (enqueue_item_prim s item).1 = true := by
      cases hbool : (enqueue_item_prim s item).1
      · have := hi4.mp hbool
        omega
      · rfl
    have hlen : live_count (enqueue_item_prim s item).2 = live_count s + 1 := by
      have hh := congrArg List.length hi3
      rw [hok, if_pos rfl, List.length_append] at hh
      rw [length_queue_contents, length_queue_contents] at hh
      simpa using hh
    have hper : ring_period (enqueue_item_prim s item).2.capacity =
        ring_period s.capacity := by rw [hi2]
    obtain ⟨hj1, hj2, hj3, hj4⟩ := ih (enqueue_item_prim s item).2 hi1
      (by rw [hper, hlen]; omega)
    rw [enqueue_many_cons]
    refine ⟨?_, hj2, by rw [hj3, hi2], ?_⟩
    · rw [hok, hj1]
      simp [List.replicate_succ]
    · rw [hj4, hlen]
      simp only [List.length_cons]
      omega

/-! ### Claim C1 (amended) -/

/-- Claim C1 as amended: for every capacity `C` with `1 ≤ C` and
`C + 2 ≤ 2^32`, on a freshly created queue with no intervening dequeues, the
first `C` consecutive enqueue calls each return `true` and the `(C+1)`-th
returns `false`. (The amendment adds the bound forced by the `u32` index
arithmetic; see the counterexample at `C = 2^32 - 1`.) -/
theorem first_capacity_enqueues (capacity : Nat) (uninit : Nat → α)
    (items : List α) (s0 : RingState α) (hpos : 1 ≤ capacity)
    (hbound : capacity + 2 ≤ U32CARD)
    (hnew : new_ring_queue capacity uninit = some s0)
    (hlen : items.length = capacity + 1) :
    (enqueue_many s0 items).2 = List.replicate capacity true ++ [false] := by
  obtain ⟨s0', hs0', hinv, hcont, hcap, _, _⟩ := new_ring_queue_spec capacity uninit hpos
  rw [hnew] at hs0'
  injection hs0' with h
  subst h
  have hper : ring_period s0.capacity = capacity + 2 := by
    have h1 := ring_period_eq_icap capacity
      (by unfold indexing_adjusted_capacity; omega)
    unfold indexing_adjusted_capacity at h1
    rw [hcap, h1]
  have hlc0 : live_count s0 = 0 := by
    have hh := congrArg List.length hcont
    rw [length_queue_contents] at hh
    simpa using hh
  have hlen1 : (items.take capacity).length = capacity := by
    rw [List.length_take]
    omega
  have hlen2 : (items.drop capacity).length = 1 := by
    rw [List.length_drop]
    omega
  obtain ⟨a, ha⟩ := List.length_eq_one.mp hlen2
  obtain ⟨hr1, hr2, hr3, hr4⟩ := enqueue_many_succeeds (items.take capacity) s0 hinv
    (by rw [hlen1, hlc0, hper]; omega)
  obtain ⟨_, _, _, he4, _⟩ :=
    enqueue_spec (enqueue_many s0 (items.take capacity)).1 a hr2
  have hfail : (enqueue_item_prim (enqueue_many s0 (items.take capacity)).1 a).1 = false := by
    apply he4.mpr
    rw [hr4, hlc0, hlen1, hr3, hper]
    omega
  conv_lhs => rw [← List.take_append_drop capacity items]
  rw [ha, enqueue_many_append, hr1, enqueue_many_cons, enqueue_many_nil, hfail, hlen1]

/-- Counterexample to claim C1 as stated: at capacity `2^32 - 1` (accepted by
the constructor) the very first enqueue on the fresh queue returns `false`,
because `(capacity + 2) as u32 = 1` makes the wrapped successor of
`write_index = 0` collide with `read_index = (capacity + 1) as u32 = 0`. -/
theorem first_enqueue_fails_at_u32_boundary :
    Option.map (fun s => (enqueue_item_prim s (7 : Nat)).1)
      (new_ring_queue 4294967295 (fun _ => (0 : Nat))) = some false := rfl

/-- Witness for amended claim C1 at capacity 1: the first enqueue succeeds
and the second fails. -/
theorem first_capacity_enqueues_witness :
    (enqueue_many (⟨1, 2, 0, fun _ => (0 : Nat)⟩ : RingState Nat) [4, 5]).2 =
      List.replicate 1 true ++ [false] :=
  first_capacity_enqueues 1 (fun _ => 0) [4, 5] ⟨1, 2, 0, fun _ => (0 : Nat)⟩
    (by decide) (by decide) rfl rfl

/-! ### Claim C5 (amended) -/

/-- Claim C5 as amended: `new_ring_queue` fails fatally exactly on
`capacity = 0`; for every capacity with `1 ≤ capacity` and
`capacity + 2 ≤ 2^32` it returns a queue whose control block holds
`write_index = 0` and `read_index = capacity + 1` (the planned slot count
minus one), so an immediate dequeue fails (empty) and an immediate enqueue
succeeds (not full). (The amendment adds the capacity bound forced by the
`u32` cast of the initial read index; see the counterexample at
`2^32 - 1`.) -/
theorem create_initialization (capacity : Nat) (uninit : Nat → α) (item dst : α) :
    (new_ring_queue capacity uninit = (none : Option (RingState α)) ↔ capacity = 0) ∧
    (1 ≤ capacity → capacity + 2 ≤ U32CARD →
      ∃ s0 : RingState α, new_ring_queue capacity uninit = some s0 ∧
        s0.write_index = 0 ∧
        s0.read_index = capacity + 1 ∧
        s0.read_index = indexing_adjusted_capacity capacity - 1 ∧
        (dequeue_item_prim s0 dst).1 = false ∧
        (enqueue_item_prim s0 item).1 = true) := by
  constructor
  · unfold new_ring_queue
    by_cases h : capacity = 0
    · rw [if_pos h]
      simp [h]
    · rw [if_neg h]
      simp [h]
  · intro hpos hbound
    obtain ⟨s0, hs0, hinv, hcont, hcap, hw0, hrd⟩ := new_ring_queue_spec capacity uninit hpos
    have hper : ring_period capacity = capacity + 2 := by
      have h1 := ring_period_eq_icap capacity
        (by unfold indexing_adjusted_capacity; omega)
      unfold indexing_adjusted_capacity at h1
      exact h1
    have hlc0 : live_count s0 = 0 := by
      have hh := congrArg List.length hcont
      rw [length_queue_contents] at hh
      simpa using hh
    refine ⟨s0, hs0, hw0, ?_, ?_, ?_, ?_⟩
    · rw [hrd, hper]
      omega
    · rw [hrd, hper]
      unfold indexing_adjusted_capacity
      omega
    · obtain ⟨_, _, _, hd4, _⟩ := dequeue_spec s0 dst hinv
      exact hd4.mpr hcont
    · obtain ⟨_, _, _, he4, _⟩ := enqueue_spec s0 item hinv
      cases hb : (enqueue_item_prim s0 item).1
      · exfalso
        have hfull := he4.mp hb
        rw [hlc0, hcap, hper] at hfull
        omega
      · rfl

/-- Counterexample to claim C5 as stated: at capacity `2^32 - 1` the
constructor still succeeds but stores `read_index = 0`, not
`capacity + 1 = 2^32`, because the initial read index is truncated to
`u32`. -/
theorem create_initialization_counterexample :
    Option.map (fun s : RingState Nat => s.read_index)
      (new_ring_queue 4294967295 (fun _ => (0 : Nat))) = some 0 ∧
    (0 : Nat) ≠ 4294967295 + 1 :=
  ⟨rfl, by decide⟩

/-- Witness for amended claim C5 at capacity 1. -/
theorem create_initialization_witness :
    ∃ s0 : RingState Nat, new_ring_queue 1 (fun _ => (0 : Nat)) = some s0 ∧
      s0.write_index = 0 ∧
      s0.read_index = 1 + 1 ∧
      s0.read_index = indexing_adjusted_capacity 1 - 1 ∧
      (dequeue_item_prim s0 9).1 = false ∧
      (enqueue_item_prim s0 7).1 = true :=
  (create_initialization 1 (fun _ => (0 : Nat)) 7 9).2 (by decide) (by decide)

/-! ### Claim C9 -/

/-- Claim C9: the index arithmetic is 32-bit while the constructor accepts
any nonzero capacity with no upper-bound check — so the fresh queue exists
for every positive capacity, the wrap modulus `capacity + 2` survives the
`u32` cast exactly under the precondition `capacity ≤ 2^32 - 3`, and beyond
it (at `capacity = 2^32 - 1`) the truncated modulus breaks the full/empty
arithmetic: the fresh queue rejects its first enqueue. -/
theorem index_arithmetic_is_32_bit (uninit : Nat → Nat) :
    (∀ capacity : Nat, 1 ≤ capacity →
      ∃ s : RingState Nat, new_ring_queue capacity uninit = some s) ∧
    (∀ capacity : Nat, capacity ≤ U32CARD - 3 →
      u32 (indexing_adjusted_capacity capacity) = indexing_adjusted_capacity capacity) ∧
    u32 (indexing_adjusted_capacity (U32CARD - 1)) ≠
      indexing_adjusted_capacity (U32CARD - 1) ∧
    Option.map (fun s => (enqueue_item_prim s (7 : Nat)).1)
      (new_ring_queue 4294967295 (fun _ => (0 : Nat))) = some false := by
  refine ⟨?_, ?_, ?_, ?_⟩
  · intro capacity hpos
    obtain ⟨s, hs, _⟩ := new_ring_queue_spec capacity uninit hpos
    exact ⟨s, hs⟩
  · intro capacity hcap
    unfold u32 indexing_adjusted_capacity U32CARD at *
    omega
  · unfold u32 indexing_adjusted_capacity U32CARD
    omega
  · exact rfl

/-- Witness for claim C9 at capacity 5 (inside the precondition). -/
theorem index_arithmetic_is_32_bit_witness :
    (∃ s : RingState Nat, new_ring_queue 5 (fun _ => (0 : Nat)) = some s) ∧
    u32 (indexing_adjusted_capacity 5) = indexing_adjusted_capacity 5 :=
  ⟨(index_arithmetic_is_32_bit (fun _ => 0)).1 5 (by decide),
   (index_arithmetic_is_32_bit (fun _ => 0)).2.1 5 (by decide)⟩

/-! ### The layout planner

`alloc_ring_queue_backing_store` (lines 40-56) computes the byte layout of
the single backing allocation, and `mid_to_origin_ptr` (lines 58-66) recovers
the allocation origin from the first-slot pointer. Addresses are `usize`
(64-bit); a `Layout` is a size plus a power-of-two alignment. -/

/-- Number of values of Rust `usize` (64-bit target). -/
def USIZECARD : Nat := 2 ^ 64

/-- Rust `core::alloc::Layout`: a size and a (power-of-two) alignment. -/
structure LayoutSpec where
  size : Nat
  align : Nat

/-- Rust `usize::next_multiple_of` (for a positive modulus). -/
def next_multiple_of (x k : Nat) : Nat := (x + k - 1) / k * k

/-- Line 46: `midpoint = metadata_layout.size().next_multiple_of(item_layout.align())`. -/
def alloc_midpoint (metadata_layout item_layout : LayoutSpec) : Nat :=
  next_multiple_of metadata_layout.size item_layout.align

/-- Line 48: `total_size = midpoint + item_layout.size() * indexing_adjusted_capacity`. -/
def alloc_total_size (metadata_layout item_layout : LayoutSpec) (capacity : Nat) : Nat :=
  alloc_midpoint metadata_layout item_layout +
    item_layout.size * indexing_adjusted_capacity capacity

/-- Lines 50 and 64: `align = metadata_layout.align().max(item_layout.align())`. -/
def alloc_align (metadata_layout item_layout : LayoutSpec) : Nat :=
  max metadata_layout.align item_layout.align

/-- `fn mid_to_origin_ptr` (line 65):
`(addr - metadata_layout.size()) & !(align - 1)`, where `!` is the 64-bit
bitwise complement, so `!(align - 1) = 2^64 - align` for a power-of-two
`align`. -/
def mid_to_origin_ptr (mid_addr : Nat) (metadata_layout item_layout : LayoutSpec) : Nat :=
  (mid_addr - metadata_layout.size) &&&
    (USIZECARD - alloc_align metadata_layout item_layout)

/-- Modelled from the spec wording of §4.1 for the refinement comparison:
`totalAllocationSize = midpointOffset + itemSize * plannedSlotCount(capacity)`
with `midpointOffset = controlBlockSize rounded up to the item's alignment`
and `plannedSlotCount(capacity) = capacity + 2`. -/
def spec_total_allocation_size (metadata_layout item_layout : LayoutSpec)
    (capacity : Nat) : Nat :=
  next_multiple_of metadata_layout.size item_layout.align +
    item_layout.size * (capacity + 2)

/-- Modelled from the spec wording of §4.1:
`allocationAlignment = max(controlBlockAlignment, itemAlignment)`. -/
def spec_allocation_alignment (metadata_layout item_layout : LayoutSpec) : Nat :=
  max metadata_layout.align item_layout.align

theorem le_next_multiple_of (x k : Nat) (hk : 0 < k) : x ≤ next_multiple_of x k := by
  unfold next_multiple_of
  have h1 := Nat.mod_add_div (x + k - 1) k
  have h2 : (x + k - 1) % k < k := Nat.mod_lt _ hk
  have h3 : (x + k - 1) / k * k = k * ((x + k - 1) / k) := Nat.mul_comm _ _
  omega

theorem next_multiple_of_lt_add (x k : Nat) (hk : 0 < k) :
    next_multiple_of x k < x + k := by
  unfold next_multiple_of
  have h1 := Nat.mod_add_div (x + k - 1) k
  have h2 : (x + k - 1) % k < k := Nat.mod_lt _ hk
  have h3 : (x + k - 1) / k * k = k * ((x + k - 1) / k) := Nat.mul_comm _ _
  omega

/-- Masking a 64-bit value with `!(2^k - 1) = 2^64 - 2^k` rounds it down to a
multiple of `2^k`. -/
theorem land_complement_of_pow (x k : Nat) (hk : k ≤ 64) (hx : x < USIZECARD) :
    x &&& (USIZECARD - 2 ^ k) = x - x % 2 ^ k := by
  have hpow : (2 : Nat) ^ (64 - k) * 2 ^ k = 2 ^ 64 := by
    rw [← pow_add]
    congr 1
    omega
  have hm : USIZECARD - 2 ^ k = (2 ^ (64 - k) - 1) <<< k := by
    rw [Nat.shiftLeft_eq, Nat.sub_mul, one_mul, hpow]
    rfl
  have hdiv := Nat.mod_add_div x (2 ^ k)
  have hrhs : x - x % 2 ^ k = (x >>> k) <<< k := by
    rw [Nat.shiftLeft_eq, Nat.shiftRight_eq_div_pow]
    have h3 : x / 2 ^ k * 2 ^ k = 2 ^ k * (x / 2 ^ k) := Nat.mul_comm _ _
    omega
  rw [hm, hrhs]
  apply Nat.eq_of_testBit_eq
  intro i
  rw [Nat.testBit_land, Nat.testBit_shiftLeft, Nat.testBit_shiftLeft,
    Nat.testBit_shiftRight, Nat.testBit_two_pow_sub_one]
  by_cases hki : k ≤ i
  · have hik : k + (i - k) = i := by omega
    rw [hik]
    by_cases hi64 : i < 64
    · have h1 : i - k < 64 - k := by omega
      simp [hki, h1, GE.ge]
    · have hxb : x.testBit i = false := by
        apply Nat.testBit_lt_two_pow
        calc x < USIZECARD := hx
          _ = 2 ^ 64 := rfl
          _ ≤ 2 ^ i := Nat.pow_le_pow_right (by norm_num) (by omega)
      have h1 : ¬ (i - k < 64 - k) := by omega
      simp [hxb, h1]
  · simp [hki, GE.ge]

/-! ### Claim C7 -/

/-- Claim C7: the layout planner computes
`totalAllocationSize = (controlBlockSize rounded up to item alignment) +
itemSize * (capacity + 2)` and
`allocationAlignment = max(controlBlockAlignment, itemAlignment)`; and origin
recovery is a round trip — for every metadata layout, item layout, and
allocation origin aligned to the allocation alignment, rounding
`origin + midpointOffset − controlBlockSize` down to the allocation alignment
(the `& !(align-1)` mask) yields exactly `origin`. -/
theorem layout_planner_round_trip (metadata_layout item_layout : LayoutSpec)
    (capacity origin a b : Nat)
    (hma : metadata_layout.align = 2 ^ a) (hia : item_layout.align = 2 ^ b)
    (ha : a ≤ 64) (hb : b ≤ 64)
    (halign : origin % alloc_align metadata_layout item_layout = 0)
    (hfit : origin + alloc_midpoint metadata_layout item_layout < USIZECARD) :
    alloc_total_size metadata_layout item_layout capacity =
      spec_total_allocation_size metadata_layout item_layout capacity ∧
    alloc_align metadata_layout item_layout =
      spec_allocation_alignment metadata_layout item_layout ∧
    mid_to_origin_ptr (origin + alloc_midpoint metadata_layout item_layout)
      metadata_layout item_layout = origin := by
  refine ⟨rfl, rfl, ?_⟩
  have hal : alloc_align metadata_layout item_layout = 2 ^ max a b := by
    unfold alloc_align
    rw [hma, hia]
    rcases Nat.le_total a b with h | h
    · rw [Nat.max_eq_right h,
        Nat.max_eq_right (Nat.pow_le_pow_right (by norm_num) h)]
    · rw [Nat.max_eq_left h,
        Nat.max_eq_left (Nat.pow_le_pow_right (by norm_num) h)]
  have hbpos : 0 < item_layout.align := by
    rw [hia]
    exact Nat.pos_pow_of_pos b (by norm_num)
  have hub : metadata_layout.size ≤ alloc_midpoint metadata_layout item_layout :=
    le_next_multiple_of _ _ hbpos
  have hpad : alloc_midpoint metadata_layout item_layout - metadata_layout.size <
      item_layout.align := by
    have := next_multiple_of_lt_add metadata_layout.size item_layout.align hbpos
    unfold alloc_midpoint
    omega
  have hpadal : alloc_midpoint metadata_layout item_layout - metadata_layout.size <
      2 ^ max a b := by
    have h1 : item_layout.align ≤ 2 ^ max a b := by
      rw [hia]
      exact Nat.pow_le_pow_right (by norm_num) (Nat.le_max_right a b)
    omega
  unfold mid_to_origin_ptr
  rw [show origin + alloc_midpoint metadata_layout item_layout -
      metadata_layout.size =
      origin + (alloc_midpoint metadata_layout item_layout - metadata_layout.size)
    from by omega]
  rw [hal]
  rw [land_complement_of_pow _ (max a b) (by omega) (by omega)]
  obtain ⟨t, ht⟩ : 2 ^ max a b ∣ origin := by
    apply Nat.dvd_of_mod_eq_zero
    rw [hal] at halign
    exact halign
  have hmod : (origin +
      (alloc_midpoint metadata_layout item_layout - metadata_layout.size)) %
      2 ^ max a b =
      alloc_midpoint metadata_layout item_layout - metadata_layout.size := by
    rw [ht, Nat.mul_add_mod]
    exact Nat.mod_eq_of_lt hpadal
  rw [hmod]
  omega

/-- Witness for claim C7 with the concrete layouts of the source's `basic`
test: the 8-byte 4-aligned control block, 4-byte 4-aligned items
(`a = b = 2`), capacity 16, and origin 64. -/
theorem layout_planner_round_trip_witness :
    alloc_total_size ⟨8, 4⟩ ⟨4, 4⟩ 16 = spec_total_allocation_size ⟨8, 4⟩ ⟨4, 4⟩ 16 ∧
    alloc_align ⟨8, 4⟩ ⟨4, 4⟩ = spec_allocation_alignment ⟨8, 4⟩ ⟨4, 4⟩ ∧
    mid_to_origin_ptr (64 + alloc_midpoint ⟨8, 4⟩ ⟨4, 4⟩) ⟨8, 4⟩ ⟨4, 4⟩ = 64 :=
  layout_planner_round_trip ⟨8, 4⟩ ⟨4, 4⟩ 16 64 2 2 (by decide) (by decide)
    (by decide) (by decide) (by decide) (by decide)

end RingQueueModel
